import Mathlib

/-!
Verification of the `dups` duplicate-file finder.

Go strings are modelled as lists of naturals (byte values / rune codepoints),
`int64` as `Int`, `uint64` arithmetic as `Nat` arithmetic modulo `2 ^ 64`.
Channel-driven loops are modelled as list-processing functions (the per-item
work is deterministic; only cross-item interleaving is concurrent in the
original, and the claims below are order-independent where that matters).
-/

set_option autoImplicit false

namespace Dups

/-! ## node/node.go: hex encoding of a SHA-1 digest -/

/-- `node.halfByteToHex`: render the low nibble of a byte as a lowercase hex
character code.  The Go switch on `c := b & 0xf` lists the cases `0..9` and
`a..f`; its unreachable fallthrough returns 0. -/
def halfByteToHex (b : Nat) : Nat :=
  let c := b &&& 0xf
  if c ≤ 9 then 48 + c
  else if c ≤ 0xf then 97 + c - 10
  else 0

/-- `node.byteToHex`: high nibble first, then low nibble. -/
def byteToHex (b : Nat) : Nat × Nat :=
  (halfByteToHex (b >>> 4), halfByteToHex b)

/-- `node.hashToString`: the Go loop fills a byte slice of length `2*len(bts)`
writing positions `2i` and `2i+1` from `byteToHex bts[i]`, which is exactly a
flat map of `byteToHex` over the input. -/
def hashToString (bts : List Nat) : List Nat :=
  bts.flatMap (fun b => [(byteToHex b).1, (byteToHex b).2])

/-- A character code is a lowercase hexadecimal digit (`[0-9a-f]`). -/
def isLowerHexChar (c : Nat) : Prop :=
  (48 ≤ c ∧ c ≤ 57) ∨ (97 ≤ c ∧ c ≤ 102)

instance (c : Nat) : Decidable (isLowerHexChar c) := by
  unfold isLowerHexChar; infer_instance

/-- The standard lowercase hex digit for a nibble, written from the spec's
words "lowercase hexadecimal" for the refinement comparison in C10. -/
def hexDigitChar (x : Nat) : Nat :=
  if x ≤ 9 then 48 + x else 87 + x

theorem halfByteToHex_eq (b : Nat) : halfByteToHex b = hexDigitChar (b % 16) := by
  have hand : b &&& 0xf = b % 16 := by
    have h := Nat.and_pow_two_sub_one_eq_mod b 4
    norm_num at h
    exact h
  have h16 : b % 16 < 16 := Nat.mod_lt _ (by norm_num)
  simp only [halfByteToHex, hexDigitChar, hand]
  by_cases h : b % 16 ≤ 9
  · simp [h]
  · have h15 : b % 16 ≤ 0xf := by omega
    simp [h, h15]
    omega

theorem halfByteToHex_isLowerHex (b : Nat) : isLowerHexChar (halfByteToHex b) := by
  rw [halfByteToHex_eq]
  have h16 : b % 16 < 16 := Nat.mod_lt _ (by norm_num)
  unfold hexDigitChar isLowerHexChar
  split
  · left; omega
  · right; omega

theorem hashToString_length (bts : List Nat) :
    (hashToString bts).length = 2 * bts.length := by
  induction bts with
  | nil => rfl
  | cons b rest ih =>
    simp [hashToString] at ih ⊢
    omega

theorem hashToString_chars (bts : List Nat) :
    ∀ c ∈ hashToString bts, isLowerHexChar c := by
  induction bts with
  | nil => intro c hc; simp [hashToString] at hc
  | cons b rest ih =>
    intro c hc
    have hc' : c ∈ [(byteToHex b).1, (byteToHex b).2] ++ hashToString rest := by
      simpa [hashToString] using hc
    rcases List.mem_append.mp hc' with h | h
    · simp only [List.mem_cons, List.not_mem_nil, or_false] at h
      rcases h with h | h <;> (rw [h]; exact halfByteToHex_isLowerHex _)
    · exact ih c h

theorem byteToHex_std (b : Nat) (hb : b < 256) :
    (byteToHex b).1 = hexDigitChar (b / 16) ∧ (byteToHex b).2 = hexDigitChar (b % 16) := by
  constructor
  · show halfByteToHex (b >>> 4) = _
    rw [halfByteToHex_eq]
    have hdiv : b >>> 4 = b / 16 := by
      rw [Nat.shiftRight_eq_div_pow]
    rw [hdiv, Nat.mod_eq_of_lt (by omega : b / 16 < 16)]
  · exact halfByteToHex_eq b

/-- C10: `hashToString` is the lowercase hexadecimal encoding: for any byte
sequence (all entries < 256) the result has length exactly twice the input
length, every character is a lowercase hex digit, and each byte is rendered
as its high nibble followed by its low nibble, agreeing with the standard
hex encoding (so a 20-byte SHA-1 digest yields 40 characters). -/
theorem hashToString_is_lower_hex_encoding (bts : List Nat)
    (hb : ∀ b ∈ bts, b < 256) :
    (hashToString bts).length = 2 * bts.length ∧
    (∀ c ∈ hashToString bts, isLowerHexChar c) ∧
    hashToString bts = bts.flatMap (fun b => [hexDigitChar (b / 16), hexDigitChar (b % 16)]) := by
  refine ⟨hashToString_length bts, hashToString_chars bts, ?_⟩
  induction bts with
  | nil => rfl
  | cons b rest ih =>
    have hb' : b < 256 := hb b (by simp)
    have hrest : ∀ x ∈ rest, x < 256 := fun x hx => hb x (by simp [hx])
    have hstd := byteToHex_std b hb'
    simp only [hashToString, List.flatMap_cons] at ih ⊢
    rw [hstd.1, hstd.2, ih hrest]

/-- Witness for C10 on a concrete digest. -/
theorem hashToString_is_lower_hex_encoding_witness :
    (hashToString [0, 255, 171]).length = 2 * 3 ∧
    (∀ c ∈ hashToString [0, 255, 171], isLowerHexChar c) ∧
    hashToString [0, 255, 171] =
      [48, 48, 102, 102, 97, 98] := by
  have h := hashToString_is_lower_hex_encoding [0, 255, 171] (by decide)
  refine ⟨h.1, h.2.1, ?_⟩
  rw [h.2.2]; decide

/-! ## fstree: fast string concatenation (C9) -/

/-- `fstree.fastStringConcat`: allocate an empty byte slice with reserved
capacity, then append the first string's bytes, the separator byte, and the
third string's bytes. -/
def fastStringConcat (first : List Nat) (second : Nat) (third : List Nat) : List Nat :=
  let res : List Nat := []
  let res := res ++ first
  let res := res ++ [second]
  let res := res ++ third
  res

/-- C9: `fastStringConcat first second third` equals the plain concatenation
`first ++ [second] ++ third` that it replaces in `walkDir`. -/
theorem fastStringConcat_eq_append (first : List Nat) (second : Nat) (third : List Nat) :
    fastStringConcat first second third = first ++ second :: third := by
  simp [fastStringConcat]

/-! ## mapreduce/types.go: the two canonical reducers

A Go `map` is modelled as an insertion-ordered association list; iteration
order of the map is never relied upon by these reducers (they only read and
update single keys while looping over the input channel), so the model is
exact.  The input channel is modelled as the list of key/value pairs it
delivers; emission on the output channel appends to the result list. -/

section Reducers

variable {K V : Type} [DecidableEq K]

/-- Go map read `v, ok := m[k]`. -/
def alistFind {A B : Type} [DecidableEq A] : List (A × B) → A → Option B
  | [], _ => none
  | (k', v) :: rest, k => if k' = k then some v else alistFind rest k

/-- Go map write `m[k] = v`. -/
def alistSet {A B : Type} [DecidableEq A] : List (A × B) → A → B → List (A × B)
  | [], k, v => [(k, v)]
  | (k', v') :: rest, k, v =>
    if k' = k then (k, v) :: rest else (k', v') :: alistSet rest k v

theorem alistFind_set_self {A B : Type} [DecidableEq A] (m : List (A × B)) (k : A) (v : B) :
    alistFind (alistSet m k v) k = some v := by
  induction m with
  | nil => simp [alistFind, alistSet]
  | cons p rest ih =>
    by_cases h : p.1 = k
    · simp [alistSet, alistFind, h]
    · simp [alistSet, alistFind, h, ih]

theorem alistFind_set_ne {A B : Type} [DecidableEq A] (m : List (A × B)) (k' k : A) (v : B)
    (h : k' ≠ k) : alistFind (alistSet m k' v) k = alistFind m k := by
  induction m with
  | nil => simp [alistFind, alistSet, h]
  | cons p rest ih =>
    rcases p with ⟨a, b⟩
    by_cases hp : a = k'
    · subst hp
      simp only [alistSet, if_pos rfl, alistFind]
      simp [h]
    · simp only [alistSet, if_neg hp, alistFind]
      by_cases hak : a = k
      · simp [hak]
      · simp [hak, ih]

theorem mem_alistSet {A B : Type} [DecidableEq A] (m : List (A × B)) (k : A) (v : B) :
    ∀ p ∈ alistSet m k v, p = (k, v) ∨ p ∈ m := by
  induction m with
  | nil => simp [alistSet]
  | cons q rest ih =>
    intro p hp
    by_cases hq : q.1 = k
    · simp only [alistSet, hq, if_pos rfl] at hp
      rcases List.mem_cons.mp hp with h | h
      · exact Or.inl h
      · exact Or.inr (List.mem_cons.mpr (Or.inr h))
    · simp only [alistSet, hq, if_neg hq] at hp
      rcases List.mem_cons.mp hp with h | h
      · exact Or.inr (List.mem_cons.mpr (Or.inl h))
      · rcases ih p h with h' | h'
        · exact Or.inl h'
        · exact Or.inr (List.mem_cons.mpr (Or.inr h'))

/-- The loop body of `mapreduce.FilterOutUniques` (`types.go`): buffer the
first value of a key in `byHash`; on the second occurrence emit the buffered
value (`vec[0]`, which is all of `vec` when `len(vec) == 1`) and the new one;
on later occurrences emit only the new one.  `reduceByFileSize` and
`reduceByHash` in `main.go` / `finder.go` run the same algorithm. -/
def filterUniquesLoop : List (K × List (K × V)) → List (K × V) → List (K × V)
  | _, [] => []
  | m, x :: rest =>
    match alistFind m x.1 with
    | some vec =>
      (if vec.length = 1 then vec else []) ++
        x :: filterUniquesLoop (alistSet m x.1 (vec ++ [x])) rest
    | none => filterUniquesLoop (alistSet m x.1 [x]) rest

/-- `mapreduce.FilterOutUniques`: run the loop with an empty aggregation map. -/
def FilterOutUniques (input : List (K × V)) : List (K × V) :=
  filterUniquesLoop [] input

/-- The subsequence of pairs carrying key `k`. -/
def restrictKey (k : K) (l : List (K × V)) : List (K × V) :=
  l.filter (fun p => decide (p.1 = k))

/-- Single-key trace of the filter-uniques behaviour: first argument is the
buffered list for the key, second the remaining occurrences of the key. -/
def perKeyEmit : List (K × V) → List (K × V) → List (K × V)
  | _, [] => []
  | [], x :: rest => perKeyEmit [x] rest
  | vec@(_ :: _), x :: rest =>
    (if vec.length = 1 then vec else []) ++ x :: perKeyEmit (vec ++ [x]) rest

/-- Well-formedness of the aggregation map: buffered lists are nonempty and
hold only pairs with the bucket's key. -/
def WFmap (m : List (K × List (K × V))) : Prop :=
  ∀ k vec, alistFind m k = some vec → vec ≠ [] ∧ ∀ p ∈ vec, p.1 = k

theorem restrictKey_all (k : K) (l : List (K × V)) (h : ∀ p ∈ l, p.1 = k) :
    restrictKey k l = l := by
  unfold restrictKey
  rw [List.filter_eq_self]
  intro p hp
  simp [h p hp]

theorem restrictKey_none (k : K) (l : List (K × V)) (h : ∀ p ∈ l, p.1 ≠ k) :
    restrictKey k l = [] := by
  unfold restrictKey
  rw [List.filter_eq_nil_iff]
  intro p hp
  simp [h p hp]

theorem WFmap_set (m : List (K × List (K × V))) (k : K) (vec : List (K × V))
    (hm : WFmap m) (hne : vec ≠ []) (hkeys : ∀ p ∈ vec, p.1 = k) :
    WFmap (alistSet m k vec) := by
  intro k' vec' hfind
  by_cases h : k = k'
  · subst h
    rw [alistFind_set_self] at hfind
    cases hfind
    exact ⟨hne, hkeys⟩
  · rw [alistFind_set_ne m k k' vec h] at hfind
    exact hm k' vec' hfind

theorem filterUniquesLoop_restrict (input : List (K × V)) :
    ∀ (m : List (K × List (K × V))), WFmap m → ∀ k,
      restrictKey k (filterUniquesLoop m input) =
        perKeyEmit ((alistFind m k).getD []) (restrictKey k input) := by
  induction input with
  | nil =>
    intro m _ k
    simp [filterUniquesLoop, restrictKey, perKeyEmit]
  | cons x rest ih =>
    intro m hwf k
    cases hfind : alistFind m x.1 with
    | none =>
      have hwf' : WFmap (alistSet m x.1 [x]) :=
        WFmap_set m x.1 [x] hwf (by simp) (by simp)
      by_cases hk : x.1 = k
      · subst hk
        have hm' : alistFind (alistSet m x.1 [x]) x.1 = some [x] :=
          alistFind_set_self m x.1 [x]
        simp only [filterUniquesLoop, hfind]
        rw [ih _ hwf' x.1, hm']
        simp only [Option.getD_some, Option.getD_none]
        have hx : restrictKey x.1 (x :: rest) = x :: restrictKey x.1 rest := by
          simp [restrictKey]
        rw [hx]
        rfl
      · have hm' : alistFind (alistSet m x.1 [x]) k = alistFind m k :=
          alistFind_set_ne m x.1 k [x] hk
        simp only [filterUniquesLoop, hfind]
        rw [ih _ hwf' k, hm']
        have hx : restrictKey k (x :: rest) = restrictKey k rest := by
          simp [restrictKey, hk]
        rw [hx]
    | some vec =>
      obtain ⟨hvne, hvkeys⟩ := hwf x.1 vec hfind
      have hwf' : WFmap (alistSet m x.1 (vec ++ [x])) := by
        refine WFmap_set m x.1 (vec ++ [x]) hwf (by simp) ?_
        intro p hp
        rcases List.mem_append.mp hp with h | h
        · exact hvkeys p h
        · simp only [List.mem_singleton] at h
          rw [h]
      by_cases hk : x.1 = k
      · subst hk
        have hm' : alistFind (alistSet m x.1 (vec ++ [x])) x.1 = some (vec ++ [x]) :=
          alistFind_set_self m x.1 (vec ++ [x])
        simp only [filterUniquesLoop, hfind]
        have hrv : restrictKey x.1 (if vec.length = 1 then vec else []) =
            (if vec.length = 1 then vec else []) := by
          split
          · exact restrictKey_all _ _ hvkeys
          · simp [restrictKey]
        have hsplit : restrictKey x.1
            ((if vec.length = 1 then vec else []) ++
              x :: filterUniquesLoop (alistSet m x.1 (vec ++ [x])) rest) =
            (if vec.length = 1 then vec else []) ++
              x :: restrictKey x.1 (filterUniquesLoop (alistSet m x.1 (vec ++ [x])) rest) := by
          simp only [restrictKey, List.filter_append, List.filter_cons, decide_True]
          rw [← restrictKey, ← restrictKey, hrv]
          simp
        rw [hsplit, ih _ hwf' x.1, hm']
        simp only [Option.getD_some]
        have hx : restrictKey x.1 (x :: rest) = x :: restrictKey x.1 rest := by
          simp [restrictKey]
        rw [hx]
        cases vec with
        | nil => exact absurd rfl hvne
        | cons v vs => rfl
      · have hm' : alistFind (alistSet m x.1 (vec ++ [x])) k = alistFind m k :=
          alistFind_set_ne m x.1 k (vec ++ [x]) hk
        simp only [filterUniquesLoop, hfind]
        have hrv : restrictKey k (if vec.length = 1 then vec else []) = [] := by
          split
          · exact restrictKey_none _ _ (fun p hp => by rw [hvkeys p hp]; exact hk)
          · simp [restrictKey]
        have hsplit : restrictKey k
            ((if vec.length = 1 then vec else []) ++
              x :: filterUniquesLoop (alistSet m x.1 (vec ++ [x])) rest) =
            restrictKey k (filterUniquesLoop (alistSet m x.1 (vec ++ [x])) rest) := by
          simp only [restrictKey, List.filter_append, List.filter_cons]
          rw [← restrictKey, ← restrictKey, hrv]
          simp [hk]
        rw [hsplit, ih _ hwf' k, hm']
        have hx : restrictKey k (x :: rest) = restrictKey k rest := by
          simp [restrictKey, hk]
        rw [hx]

omit [DecidableEq K] in
theorem perKeyEmit_of_two : ∀ (xs vec : List (K × V)), 2 ≤ vec.length →
    perKeyEmit vec xs = xs := by
  intro xs
  induction xs with
  | nil =>
    intro vec _
    cases vec with
    | nil => rfl
    | cons v vs => rfl
  | cons x rest ih =>
    intro vec h
    cases vec with
    | nil => simp at h
    | cons v vs =>
      have hlen : ¬ ((v :: vs).length = 1) := by
        simp only [List.length_cons] at h ⊢
        omega
      have h' : 2 ≤ ((v :: vs) ++ [x]).length := by
        simp only [List.length_append, List.length_cons] at h ⊢
        omega
      have hstep : perKeyEmit (v :: vs) (x :: rest) =
          (if (v :: vs).length = 1 then v :: vs else []) ++
            x :: perKeyEmit ((v :: vs) ++ [x]) rest := rfl
      rw [hstep, if_neg hlen, ih _ h']
      rfl

omit [DecidableEq K] in
theorem perKeyEmit_nil_start (occs : List (K × V)) :
    perKeyEmit [] occs = if 2 ≤ occs.length then occs else [] := by
  cases occs with
  | nil => rfl
  | cons x rest =>
    cases rest with
    | nil => rfl
    | cons y r =>
      have h2 : 2 ≤ (x :: y :: r).length := by simp
      rw [if_pos h2]
      have hstep : perKeyEmit ([] : List (K × V)) (x :: y :: r) =
          perKeyEmit [x] (y :: r) := rfl
      have hstep2 : perKeyEmit [x] (y :: r) =
          (if ([x] : List (K × V)).length = 1 then [x] else []) ++
            y :: perKeyEmit ([x] ++ [y]) r := rfl
      rw [hstep, hstep2, perKeyEmit_of_two r ([x] ++ [y]) (by simp)]
      simp

/-- C2: the filter-uniques reducer (`FilterOutUniques`, and equally
`reduceByFileSize` / `reduceByHash` which run the same algorithm) emits, for
every key `k`, nothing when `k` occurs once, and exactly the `k`-keyed input
subsequence (first the buffered first value, then each later value as it
arrives) when `k` occurs at least twice; hence `n ≥ 2` occurrences yield
exactly `n` emitted values and a single occurrence yields zero. -/
theorem FilterOutUniques_per_key (input : List (K × V)) (k : K) :
    restrictKey k (FilterOutUniques input) =
      (if 2 ≤ (restrictKey k input).length then restrictKey k input else []) ∧
    (restrictKey k (FilterOutUniques input)).length =
      (if 2 ≤ (restrictKey k input).length then (restrictKey k input).length else 0) := by
  have hwf : WFmap ([] : List (K × List (K × V))) := by
    intro k' vec hfind
    simp [alistFind] at hfind
  have h := filterUniquesLoop_restrict input [] hwf k
  rw [show alistFind ([] : List (K × List (K × V))) k = none from rfl] at h
  simp only [Option.getD_none] at h
  rw [perKeyEmit_nil_start] at h
  have hmain : restrictKey k (FilterOutUniques input) =
      (if 2 ≤ (restrictKey k input).length then restrictKey k input else []) := h
  refine ⟨hmain, ?_⟩
  rw [hmain]
  split <;> simp

/-- Witness for C2 on a concrete stream: key 7 occurs three times (all three
values emitted, in order), key 5 occurs once (nothing emitted). -/
theorem FilterOutUniques_per_key_witness :
    (restrictKey 7 (FilterOutUniques [(7, 10), (5, 20), (7, 11), (7, 12)]) =
        [(7, 10), (7, 11), (7, 12)] ∧
      restrictKey 5 (FilterOutUniques [(7, 10), (5, 20), (7, 11), (7, 12)]) =
        ([] : List (Nat × Nat))) := by
  constructor
  · have h := (FilterOutUniques_per_key [(7, 10), (5, 20), (7, 11), (7, 12)] 7).1
    rw [h]
    decide
  · have h := (FilterOutUniques_per_key [(7, 10), (5, 20), (7, 11), (7, 12)] 5).1
    rw [h]
    decide

/-- The loop body of `mapreduce.FilterOutDuplicates` (`types.go`): emit the
value the first time its key is seen and remember the key; drop later values
with a remembered key.  `reduceByFileName` in `main.go` / `finder.go` runs the
same algorithm. -/
def filterDupsLoop : List (K × (K × V)) → List (K × V) → List (K × V)
  | _, [] => []
  | m, x :: rest =>
    match alistFind m x.1 with
    | some _ => filterDupsLoop m rest
    | none => x :: filterDupsLoop (alistSet m x.1 x) rest

/-- `mapreduce.FilterOutDuplicates`: run the loop with an empty seen-map. -/
def FilterOutDuplicates (input : List (K × V)) : List (K × V) :=
  filterDupsLoop [] input

theorem filterDupsLoop_sublist (input : List (K × V)) :
    ∀ m, List.Sublist (filterDupsLoop m input) input := by
  induction input with
  | nil => intro m; simp [filterDupsLoop]
  | cons x rest ih =>
    intro m
    simp only [filterDupsLoop]
    cases alistFind m x.1 with
    | some v => exact (ih m).cons x
    | none => exact (ih (alistSet m x.1 x)).cons₂ x

theorem filterDupsLoop_restrict (input : List (K × V)) :
    ∀ m k, restrictKey k (filterDupsLoop m input) =
      (if (alistFind m k).isSome then [] else (restrictKey k input).take 1) := by
  induction input with
  | nil =>
    intro m k
    simp [filterDupsLoop, restrictKey]
  | cons x rest ih =>
    intro m k
    cases hfind : alistFind m x.1 with
    | some v =>
      simp only [filterDupsLoop, hfind]
      by_cases hk : x.1 = k
      · subst hk
        rw [ih m x.1, hfind]
        simp
      · rw [ih m k]
        have hx : restrictKey k (x :: rest) = restrictKey k rest := by
          simp [restrictKey, hk]
        rw [hx]
    | none =>
      simp only [filterDupsLoop, hfind]
      by_cases hk : x.1 = k
      · subst hk
        have hcons : restrictKey x.1 (x :: filterDupsLoop (alistSet m x.1 x) rest) =
            x :: restrictKey x.1 (filterDupsLoop (alistSet m x.1 x) rest) := by
          simp [restrictKey]
        rw [hcons, ih (alistSet m x.1 x) x.1, alistFind_set_self]
        have hx : restrictKey x.1 (x :: rest) = x :: restrictKey x.1 rest := by
          simp [restrictKey]
        rw [hfind, hx]
        simp
      · have hcons : restrictKey k (x :: filterDupsLoop (alistSet m x.1 x) rest) =
            restrictKey k (filterDupsLoop (alistSet m x.1 x) rest) := by
          simp [restrictKey, hk]
        rw [hcons, ih (alistSet m x.1 x) k, alistFind_set_ne m x.1 k x hk]
        have hx : restrictKey k (x :: rest) = restrictKey k rest := by
          simp [restrictKey, hk]
        rw [hx]

theorem filterDupsLoop_keys (input : List (K × V)) :
    ∀ m, (∀ p ∈ filterDupsLoop m input, alistFind m p.1 = none) ∧
      (filterDupsLoop m input).Pairwise (fun a b => a.1 ≠ b.1) := by
  induction input with
  | nil => intro m; simp [filterDupsLoop]
  | cons x rest ih =>
    intro m
    cases hfind : alistFind m x.1 with
    | some v =>
      simp only [filterDupsLoop, hfind]
      exact ih m
    | none =>
      simp only [filterDupsLoop, hfind]
      obtain ⟨ihmem, ihpw⟩ := ih (alistSet m x.1 x)
      have hne : ∀ p ∈ filterDupsLoop (alistSet m x.1 x) rest, p.1 ≠ x.1 := by
        intro p hp heq
        have h1 := ihmem p hp
        rw [heq, alistFind_set_self] at h1
        exact Option.noConfusion h1
      constructor
      · intro p hp
        rcases List.mem_cons.mp hp with h | h
        · rw [h]; exact hfind
        · have h1 := ihmem p h
          rw [alistFind_set_ne m x.1 p.1 x (fun he => hne p h he.symm)] at h1
          exact h1
      · exact List.pairwise_cons.mpr ⟨fun p hp => (hne p hp).symm, ihpw⟩

theorem filterDupsLoop_eq_self (l : List (K × V)) :
    ∀ m, (∀ p ∈ l, alistFind m p.1 = none) →
      l.Pairwise (fun a b => a.1 ≠ b.1) → filterDupsLoop m l = l := by
  induction l with
  | nil => intro m _ _; rfl
  | cons x rest ih =>
    intro m hmem hpw
    have hfind : alistFind m x.1 = none := hmem x (by simp)
    simp only [filterDupsLoop, hfind]
    obtain ⟨hhead, htail⟩ := List.pairwise_cons.mp hpw
    congr 1
    refine ih (alistSet m x.1 x) ?_ htail
    intro p hp
    rw [alistFind_set_ne m x.1 p.1 x (hhead p hp)]
    exact hmem p (by simp [hp])

/-- C2 helper is above; C3: the filter-duplicates reducer
(`FilterOutDuplicates`, and equally `reduceByFileName`) emits exactly the
first value seen for each distinct key, in input order (its output is the
subsequence of the input keeping only each key's first occurrence), and it is
idempotent: applying it to its own output gives the same sequence. -/
theorem FilterOutDuplicates_spec (input : List (K × V)) :
    List.Sublist (FilterOutDuplicates input) input ∧
    (∀ k, restrictKey k (FilterOutDuplicates input) = (restrictKey k input).take 1) ∧
    FilterOutDuplicates (FilterOutDuplicates input) = FilterOutDuplicates input := by
  obtain ⟨hmem, hpw⟩ := filterDupsLoop_keys input ([] : List (K × (K × V)))
  refine ⟨filterDupsLoop_sublist input [], ?_, ?_⟩
  · intro k
    have h := filterDupsLoop_restrict input ([] : List (K × (K × V))) k
    rw [show alistFind ([] : List (K × (K × V))) k = none from rfl] at h
    simpa [FilterOutDuplicates] using h
  · exact filterDupsLoop_eq_self (FilterOutDuplicates input) [] (fun p _ => rfl) hpw

/-- Witness for C3 on a concrete stream. -/
theorem FilterOutDuplicates_spec_witness :
    List.Sublist (FilterOutDuplicates [(1, 10), (2, 20), (1, 11)]) [(1, 10), (2, 20), (1, 11)] ∧
    restrictKey 1 (FilterOutDuplicates [(1, 10), (2, 20), (1, 11)]) =
      (restrictKey 1 [(1, 10), (2, 20), (1, 11)]).take 1 ∧
    FilterOutDuplicates (FilterOutDuplicates [(1, 10), (2, 20), (1, 11)]) =
      FilterOutDuplicates [(1, (10 : Nat)), (2, 20), (1, 11)] := by
  obtain ⟨h1, h2, h3⟩ := FilterOutDuplicates_spec [(1, (10 : Nat)), (2, 20), (1, 11)]
  exact ⟨h1, h2 1, h3⟩

end Reducers

/-! ## node/node.go: Node and CalculateHash (C5) -/

/-- `node.Node`: path, size (`int64`), hex hash string. -/
structure Node where
  Path : List Nat
  Size : Int
  Hash : List Nat
deriving DecidableEq

/-- `node.BlockSize`: guesstimate of a filesystem block size. -/
def BlockSize : Int := 4096

/-- `node.Node.CalculateHash`.  The filesystem is modelled as a partial map
from path to content bytes; the SHA-1 digest is a parameter (the spec treats
the digest function as an external collaborator: "given a path and size,
compute a stable content fingerprint; report success or failure").  On a fast
pass a file of at most `BlockSize` bytes is skipped: success with `Hash`
untouched.  `io.CopyN(hash, file, readSize)` copies
`min(len(content), max(readSize,0))` bytes and errors when fewer than
`readSize` were copied, which also covers the code's follow-up
`n != readSize` check. -/
def CalculateHash (fast : Bool) (fs : List Nat → Option (List Nat))
    (digest : List Nat → List Nat) (node : Node) : Except String Node :=
  if fast ∧ ¬ (node.Size > BlockSize) then
    Except.ok node
  else
    let readSize : Int := if fast then BlockSize else node.Size
    match fs node.Path with
    | none => Except.error "open failed"
    | some content =>
      let n : Int := min (Int.ofNat content.length) (max readSize 0)
      if n = readSize then
        Except.ok { node with Hash := hashToString (digest (content.take readSize.toNat)) }
      else Except.error "unable to copy readSize bytes"

/-- A concrete filesystem for the C5 inputs: a 3-byte file at path `[97]` and
a 4097-byte file at path `[98]`. -/
def fsC5 : List Nat → Option (List Nat) := fun p =>
  if p = [97] then some [1, 2, 3]
  else if p = [98] then some (List.replicate 4097 5) else none

/-- A concrete stand-in digest function for the C5 inputs. -/
def digestC5 : List Nat → List Nat := fun _ => List.replicate 20 0

/-- C5 counterexample: for the readable 3-byte file at `[97]`, fast-mode
`CalculateHash` returns success but leaves `Hash` empty instead of setting it
to the digest of the first `min(Size, 4096) = 3` bytes, which would be a
nonempty 40-character string. -/
theorem CalculateHash_fast_small_skips :
    CalculateHash true fsC5 digestC5 { Path := [97], Size := 3, Hash := [] } =
      Except.ok { Path := [97], Size := 3, Hash := [] } ∧
    hashToString (digestC5 (List.take 3 [1, 2, 3])) ≠ ([] : List Nat) := by
  constructor
  · rfl
  · decide

/-- C5 (amended): in fast mode `CalculateHash` hashes only files strictly
larger than `BlockSize` = 4096 bytes, over exactly the first 4096 bytes; a
file of size at most 4096 is skipped on the fast pass — success with `Hash`
unchanged. -/
theorem CalculateHash_fast_spec (fs : List Nat → Option (List Nat))
    (digest : List Nat → List Nat) (node : Node) (content : List Nat) :
    (node.Size ≤ BlockSize → CalculateHash true fs digest node = Except.ok node) ∧
    (BlockSize < node.Size → fs node.Path = some content → 4096 ≤ content.length →
      CalculateHash true fs digest node =
        Except.ok { node with Hash := hashToString (digest (content.take 4096)) }) := by
  constructor
  · intro hsmall
    simp [CalculateHash, not_lt.mpr hsmall]
  · intro hbig hfs hlen
    have hcond : ¬ (true = true ∧ ¬ (node.Size > BlockSize)) := by
      simp [hbig]
    have hclen : BlockSize ≤ Int.ofNat content.length := by
      show (4096 : Int) ≤ Int.ofNat content.length
      rw [Int.ofNat_eq_natCast]
      exact_mod_cast hlen
    rw [CalculateHash, if_neg hcond, hfs]
    show (if Int.ofNat content.length ⊓ (BlockSize ⊔ 0) = BlockSize then
        Except.ok ({ node with
          Hash := hashToString (digest (List.take BlockSize.toNat content)) } : Node)
      else (Except.error "unable to copy readSize bytes" : Except String Node)) =
      Except.ok ({ node with Hash := hashToString (digest (content.take 4096)) } : Node)
    have hmax : (BlockSize ⊔ 0 : Int) = BlockSize := rfl
    rw [hmax, min_eq_right hclen, if_pos rfl]
    rfl

/-- Witness for C5 (amended): the 3-byte file is skipped wholesale; the
4097-byte file is hashed over its first 4096 bytes. -/
theorem CalculateHash_fast_spec_witness :
    CalculateHash true fsC5 digestC5 { Path := [97], Size := 3, Hash := [] } =
      Except.ok { Path := [97], Size := 3, Hash := [] } ∧
    CalculateHash true fsC5 digestC5 { Path := [98], Size := 4097, Hash := [] } =
      Except.ok { Path := [98], Size := 4097, Hash := hashToString (digestC5 ((List.replicate 4097 5).take 4096)) } :=
  ⟨(CalculateHash_fast_spec fsC5 digestC5 _ []).1 (by decide),
   (CalculateHash_fast_spec fsC5 digestC5 _ (List.replicate 4097 5)).2 (by decide)
     rfl (by rw [List.length_replicate]; norm_num)⟩

/-! ## main.go / finder.go: the hash pipeline stage (C6) -/

/-- `makeFileHashMapFn` (`main.go`) / `makeFileHashMap` (`finder.go`): for
each node of the input stream schedule one hash job; on success emit exactly
one key/value pair keyed by the computed hash, on failure emit nothing.  The
jobs run concurrently on the worker pool, so cross-node emission order is
unspecified; the model fixes input order (the claim is per-node and
order-independent). -/
def makeFileHashMapFn (fast : Bool) (fs : List Nat → Option (List Nat))
    (digest : List Nat → List Nat) : List Node → List (List Nat × Node)
  | [] => []
  | n :: rest =>
    (match CalculateHash fast fs digest n with
     | Except.ok n' => [(n'.Hash, n')]
     | Except.error _ => []) ++ makeFileHashMapFn fast fs digest rest

/-- C6: the hash stage emits exactly one pair, keyed by the node's hash, for
every node whose `CalculateHash` succeeds, and nothing for a node whose
`CalculateHash` fails; every emitted pair is keyed by its node's hash and
stems from a successful `CalculateHash` on some input node, so a failed node
never reaches the downstream candidate set. -/
theorem makeFileHashMapFn_spec (fast : Bool) (fs : List Nat → Option (List Nat))
    (digest : List Nat → List Nat) (nodes : List Node) :
    makeFileHashMapFn fast fs digest nodes =
      nodes.filterMap (fun n =>
        match CalculateHash fast fs digest n with
        | Except.ok n' => some (n'.Hash, n')
        | Except.error _ => none) ∧
    ∀ p ∈ makeFileHashMapFn fast fs digest nodes,
      p.1 = p.2.Hash ∧ ∃ n ∈ nodes, CalculateHash fast fs digest n = Except.ok p.2 := by
  constructor
  · induction nodes with
    | nil => rfl
    | cons n rest ih =>
      simp only [makeFileHashMapFn, List.filterMap_cons]
      cases hc : CalculateHash fast fs digest n with
      | ok n' => simp [ih]
      | error e => simp [ih]
  · induction nodes with
    | nil => intro p hp; simp [makeFileHashMapFn] at hp
    | cons n rest ih =>
      intro p hp
      simp only [makeFileHashMapFn] at hp
      rcases List.mem_append.mp hp with h | h
      · cases hc : CalculateHash fast fs digest n with
        | ok n' =>
          rw [hc] at h
          simp only [List.mem_singleton] at h
          subst h
          exact ⟨rfl, n, by simp, hc⟩
        | error e =>
          rw [hc] at h
          simp at h
      · obtain ⟨hkey, m, hm, hcalc⟩ := ih p h
        exact ⟨hkey, m, by simp [hm], hcalc⟩

/-! ## main.go / finder.go: the final reduce `reportReduceDups` (C1, C4) -/

/-- `node.Dup`: a node together with the cardinality of its hash class.
(Go's `Count` is an `int` assigned from a `len`, hence non-negative.) -/
structure Dup where
  node : Node
  Count : Nat
deriving DecidableEq

/-- The aggregation loop of `reportReduceDups`: bucket incoming nodes by
their `Hash` field, preserving per-bucket arrival order. -/
def groupLoop : List (List Nat × List Node) → List Node → List (List Nat × List Node)
  | m, [] => m
  | m, n :: rest =>
    match alistFind m n.Hash with
    | some v => groupLoop (alistSet m n.Hash (v ++ [n])) rest
    | none => groupLoop (alistSet m n.Hash [n]) rest

/-- The `byHash` map after the aggregation loop, as an insertion-ordered list
of buckets.  (Go map iteration order in the emission phase is unspecified;
insertion order is one admissible order, and the wasted-space total is
order-independent.) -/
def groupByHash (input : List Node) : List (List Nat × List Node) :=
  groupLoop [] input

/-- Go `uint64(i)` conversion of an `int64` value: two's-complement
reinterpretation, i.e. the representative of `i` modulo `2 ^ 64`. -/
def u64OfInt (i : Int) : Nat := (i % (2 ^ 64 : Int)).toNat

/-- Go `uint64` addition (`atomic.AddUint64`): addition modulo `2 ^ 64`. -/
def u64Add (a b : Nat) : Nat := (a + b) % 2 ^ 64

/-- One iteration of the emission phase of `reportReduceDups`: a bucket with
more than one node adds `uint64(nodes[0].Size * int64(count-1))` to
`TotalWastedSpace` and emits every member stamped with `count`; a singleton
bucket adds and emits nothing. -/
def reportStep (acc : List Dup × Nat) (g : List Nat × List Node) : List Dup × Nat :=
  let nodes := g.2
  let count := nodes.length
  if 1 < count then
    match nodes with
    | [] => acc
    | n0 :: _ =>
      (acc.1 ++ nodes.map (fun n => { node := n, Count := count }),
        u64Add acc.2 (u64OfInt (n0.Size * ((count : Int) - 1))))
  else acc

/-- `reportReduceDups` (`main.go` lines 141-172, identical in `finder.go`):
aggregate all input nodes by hash, then emit duplicate groups and accumulate
the wasted-space statistic (which starts at zero for the run). -/
def reportReduceDups (input : List Node) : List Dup × Nat :=
  (groupByHash input).foldl reportStep ([], 0)

/-- Spec-side wasted space of one equivalence class: `size × (count − 1)` for
an emitted class (`count > 1`), zero for a singleton class. -/
def classWaste (g : List Nat × List Node) : Nat :=
  match g.2 with
  | [] => 0
  | n0 :: _ => if 1 < g.2.length then n0.Size.toNat * (g.2.length - 1) else 0

theorem alistFind_mem {A B : Type} [DecidableEq A] (m : List (A × B)) (k : A) (v : B)
    (h : alistFind m k = some v) : (k, v) ∈ m := by
  induction m with
  | nil => simp [alistFind] at h
  | cons p rest ih =>
    rcases p with ⟨a, b⟩
    by_cases hak : a = k
    · subst hak
      simp only [alistFind, if_pos rfl] at h
      cases h
      simp
    · simp only [alistFind, if_neg hak] at h
      exact List.mem_cons.mpr (Or.inr (ih h))

theorem groupLoop_mem (input : List Node) :
    ∀ m g, g ∈ groupLoop m input → ∀ n ∈ g.2,
      (∃ g' ∈ m, n ∈ g'.2) ∨ n ∈ input := by
  induction input with
  | nil =>
    intro m g hg n hn
    exact Or.inl ⟨g, hg, hn⟩
  | cons x rest ih =>
    intro m g hg n hn
    cases hfind : alistFind m x.Hash with
    | some v =>
      rw [groupLoop, hfind] at hg
      rcases ih _ g hg n hn with ⟨g', hg', hn'⟩ | h
      · rcases mem_alistSet m x.Hash (v ++ [x]) g' hg' with h' | h'
        · subst h'
          rcases List.mem_append.mp hn' with h2 | h2
          · exact Or.inl ⟨(x.Hash, v), alistFind_mem m x.Hash v hfind, h2⟩
          · simp only [List.mem_singleton] at h2
            exact Or.inr (by simp [h2])
        · exact Or.inl ⟨g', h', hn'⟩
      · exact Or.inr (by simp [h])
    | none =>
      rw [groupLoop, hfind] at hg
      rcases ih _ g hg n hn with ⟨g', hg', hn'⟩ | h
      · rcases mem_alistSet m x.Hash [x] g' hg' with h' | h'
        · subst h'
          simp only [List.mem_singleton] at hn'
          exact Or.inr (by simp [hn'])
        · exact Or.inl ⟨g', h', hn'⟩
      · exact Or.inr (by simp [h])

theorem groupByHash_mem (input : List Node) (g : List Nat × List Node)
    (hg : g ∈ groupByHash input) : ∀ n ∈ g.2, n ∈ input := by
  intro n hn
  rcases groupLoop_mem input [] g hg n hn with ⟨g', hg', _⟩ | h
  · simp at hg'
  · exact h

theorem u64OfInt_small (i : Int) (h0 : 0 ≤ i) (h1 : i < 2 ^ 64) :
    u64OfInt i = i.toNat := by
  unfold u64OfInt
  rw [Int.emod_eq_of_lt h0 h1]

theorem waste_term_toNat (s : Int) (count : Nat) (h0 : 0 ≤ s) (h2 : 2 ≤ count) :
    (s * ((count : Int) - 1)).toNat = s.toNat * (count - 1) := by
  obtain ⟨a, ha⟩ := Int.eq_ofNat_of_zero_le h0
  have hc : ((count : Int) - 1) = ((count - 1 : Nat) : Int) := by omega
  rw [ha, hc]
  norm_cast

theorem foldl_reportStep_wasted : ∀ (gs : List (List Nat × List Node)) (acc : List Dup × Nat),
    (∀ g ∈ gs, ∀ n ∈ g.2, 0 ≤ n.Size) →
    acc.2 + (gs.map classWaste).sum < 2 ^ 64 →
    (gs.foldl reportStep acc).2 = acc.2 + (gs.map classWaste).sum := by
  intro gs
  induction gs with
  | nil =>
    intro acc _ _
    simp
  | cons g rest ih =>
    intro acc hsz hov
    rcases g with ⟨gk, gnodes⟩
    simp only [List.map_cons, List.sum_cons] at hov ⊢
    simp only [List.foldl_cons]
    have hszrest : ∀ g ∈ rest, ∀ n ∈ g.2, 0 ≤ n.Size :=
      fun g hg => hsz g (List.mem_cons_of_mem _ hg)
    cases gnodes with
    | nil =>
      have hcw : classWaste (gk, ([] : List Node)) = 0 := rfl
      have hstep : reportStep acc (gk, ([] : List Node)) = acc := rfl
      rw [hcw] at hov ⊢
      rw [hstep, ih acc hszrest (by omega)]
      omega
    | cons n0 ns =>
      have hn0 : 0 ≤ n0.Size :=
        hsz (gk, n0 :: ns) (List.mem_cons_self _ _) n0 (List.mem_cons_self _ _)
      by_cases hlen : 1 < (n0 :: ns).length
      · have h2 : 2 ≤ (n0 :: ns).length := hlen
        have hcw : classWaste (gk, n0 :: ns) = n0.Size.toNat * ((n0 :: ns).length - 1) := by
          show (if 1 < (n0 :: ns).length then n0.Size.toNat * ((n0 :: ns).length - 1) else 0) =
            n0.Size.toNat * ((n0 :: ns).length - 1)
          rw [if_pos hlen]
        have hterm0 : 0 ≤ n0.Size * (((n0 :: ns).length : Int) - 1) := by
          apply mul_nonneg hn0
          have h1 : (1 : Int) ≤ ((n0 :: ns).length : Int) := by
            exact_mod_cast Nat.one_le_of_lt hlen
          omega
        have htermNat : (n0.Size * (((n0 :: ns).length : Int) - 1)).toNat =
            classWaste (gk, n0 :: ns) := by
          rw [hcw]
          exact waste_term_toNat n0.Size ((n0 :: ns).length) hn0 h2
        have hcwlt : classWaste (gk, n0 :: ns) < 2 ^ 64 := by omega
        have htermlt : n0.Size * (((n0 :: ns).length : Int) - 1) < 2 ^ 64 := by
          rw [← Int.toNat_of_nonneg hterm0, htermNat]
          exact_mod_cast hcwlt
        have hu64 : u64OfInt (n0.Size * (((n0 :: ns).length : Int) - 1)) =
            classWaste (gk, n0 :: ns) := by
          rw [u64OfInt_small _ hterm0 htermlt, htermNat]
        have hstep : (reportStep acc (gk, n0 :: ns)).2 =
            (acc.2 + classWaste (gk, n0 :: ns)) % 2 ^ 64 := by
          simp only [reportStep, if_pos hlen]
          rw [u64Add, hu64]
        have hnowrap : acc.2 + classWaste (gk, n0 :: ns) < 2 ^ 64 := by omega
        have hacc2 : (reportStep acc (gk, n0 :: ns)).2 =
            acc.2 + classWaste (gk, n0 :: ns) := by
          rw [hstep, Nat.mod_eq_of_lt hnowrap]
        rw [ih (reportStep acc (gk, n0 :: ns)) hszrest (by rw [hacc2]; omega), hacc2]
        omega
      · have hns : ns = [] := by
          cases ns with
          | nil => rfl
          | cons a l => exact absurd (by simp) hlen
        subst hns
        have hcw : classWaste (gk, [n0]) = 0 := rfl
        have hstep : reportStep acc (gk, [n0]) = acc := rfl
        rw [hcw] at hov ⊢
        rw [hstep, ih acc hszrest (by omega)]
        omega

/-- C1: the accumulated `TotalWastedSpace` statistic of a run equals the sum
over all equivalence classes of `size × (count − 1)` — each bucket with
`count > 1` contributes exactly `nodes[0].Size * (count - 1)`, and singleton
buckets contribute nothing (`classWaste` is zero there) — provided sizes are
non-negative and the total fits in a `uint64`, so no modular wrap occurs. -/
theorem reportReduceDups_wasted (input : List Node)
    (hsz : ∀ n ∈ input, 0 ≤ n.Size)
    (hov : ((groupByHash input).map classWaste).sum < 2 ^ 64) :
    (reportReduceDups input).2 = ((groupByHash input).map classWaste).sum := by
  have h := foldl_reportStep_wasted (groupByHash input) ([], 0)
    (fun g hg n hn => hsz n (groupByHash_mem input g hg n hn))
    (by simpa using hov)
  simpa [reportReduceDups] using h

/-- Concrete C1 input: two 5-byte nodes sharing a hash and a lone 7-byte
node. -/
def inputC1 : List Node :=
  [{ Path := [97], Size := 5, Hash := [1] },
   { Path := [98], Size := 5, Hash := [1] },
   { Path := [99], Size := 7, Hash := [2] }]

/-- Witness for C1: the duplicate pair wastes `5 × (2 − 1) = 5` bytes; the
singleton class contributes nothing. -/
theorem reportReduceDups_wasted_witness :
    (reportReduceDups inputC1).2 = ((groupByHash inputC1).map classWaste).sum ∧
    ((groupByHash inputC1).map classWaste).sum = 5 :=
  ⟨reportReduceDups_wasted inputC1 (by decide) (by decide), by decide⟩

/-! ## node/node.go: the duplicate-record report line (C4) -/

/-- Modelled from the spec: decimal rendering by `fmt`'s `%d` verb (Go
standard library, not part of src/), as character codes. -/
def natToDec (n : Nat) : List Nat := (Nat.toDigits 10 n).map Char.toNat

/-- Modelled from the spec: `%d` for a possibly negative `int64`. -/
def intToDec (i : Int) : List Nat :=
  if i < 0 then 45 :: natToDec i.natAbs else natToDec i.toNat

/-- Modelled from the spec: one rune under Go's `%q` "double-quoted with
standard string escaping" (`strconv.Quote`, standard library, not part of
src/): quote and backslash are backslash-escaped, printable ASCII is kept
literal, the named control escapes apply, remaining ASCII control characters
get a `\xXX` escape, and printable non-ASCII runes are kept literal. -/
def quoteRune (c : Nat) : List Nat :=
  if c = 34 ∨ c = 92 then [92, c]
  else if 32 ≤ c ∧ c ≤ 126 then [c]
  else if c = 7 then [92, 97]
  else if c = 8 then [92, 98]
  else if c = 12 then [92, 102]
  else if c = 10 then [92, 110]
  else if c = 13 then [92, 114]
  else if c = 9 then [92, 116]
  else if c = 11 then [92, 118]
  else if c < 128 then [92, 120, halfByteToHex (c >>> 4), halfByteToHex c]
  else [c]

/-- Modelled from the spec: Go's `%q` on a whole string — the escaped runes
between double quotes. -/
def goQuote (s : List Nat) : List Nat :=
  34 :: s.flatMap quoteRune ++ [34]

/-- `node.Dup.String`:
`fmt.Sprintf("%s:%d:%d:%q", d.Hash, d.Count, d.Size, d.Path)` (58 = `:`). -/
def dupString (d : Dup) : List Nat :=
  d.node.Hash ++ 58 :: natToDec d.Count ++ 58 :: intToDec d.node.Size ++
    58 :: goQuote d.node.Path

theorem foldl_reportStep_mem : ∀ (gs : List (List Nat × List Node))
    (acc : List Dup × Nat) (d : Dup), d ∈ (gs.foldl reportStep acc).1 →
    d ∈ acc.1 ∨ ∃ g ∈ gs, d.node ∈ g.2 ∧ d.Count = g.2.length ∧ 1 < g.2.length := by
  intro gs
  induction gs with
  | nil =>
    intro acc d hd
    exact Or.inl hd
  | cons g rest ih =>
    intro acc d hd
    rcases g with ⟨gk, gnodes⟩
    simp only [List.foldl_cons] at hd
    rcases ih _ d hd with hacc | ⟨g', hg', hmem, hcount, hlen⟩
    · by_cases hlen : 1 < gnodes.length
      · cases gnodes with
        | nil => simp at hlen
        | cons n0 ns =>
          have hstep : (reportStep acc (gk, n0 :: ns)).1 =
              acc.1 ++ (n0 :: ns).map
                (fun n => { node := n, Count := (n0 :: ns).length }) := by
            simp only [reportStep, if_pos hlen]
          rw [hstep] at hacc
          rcases List.mem_append.mp hacc with h | h
          · exact Or.inl h
          · obtain ⟨n, hn, hdn⟩ := List.mem_map.mp h
            refine Or.inr ⟨(gk, n0 :: ns), List.mem_cons_self _ _, ?_, ?_, hlen⟩
            · rw [← hdn]
              exact hn
            · rw [← hdn]
      · have hstep : reportStep acc (gk, gnodes) = acc := by
          simp only [reportStep, if_neg hlen]
        rw [hstep] at hacc
        exact Or.inl hacc
    · exact Or.inr ⟨g', List.mem_cons_of_mem _ hg', hmem, hcount, hlen⟩

theorem reportReduceDups_emitted (input : List Node) (d : Dup)
    (hd : d ∈ (reportReduceDups input).1) :
    ∃ g ∈ groupByHash input, d.node ∈ g.2 ∧ d.Count = g.2.length ∧ 1 < g.2.length := by
  rcases foldl_reportStep_mem (groupByHash input) ([], 0) d hd with h | h
  · simp at h
  · exact h

/-- C4: every record the final reduce emits has `Count ≥ 2` (only groups of
cardinality exceeding one are emitted, each member stamped with the group
size); its hash — given every input node carries the `hashToString` rendering
of a 20-byte digest — is exactly 40 lowercase hexadecimal characters; and the
report line is `HASH:COUNT:SIZE:"PATH"`: the colon-joined fields with the
path double-quoted (the quoted path starts and ends with `"` = 34). -/
theorem reportReduceDups_record_format (input : List Node)
    (hh : ∀ n ∈ input, ∃ bts : List Nat, bts.length = 20 ∧ n.Hash = hashToString bts) :
    ∀ d ∈ (reportReduceDups input).1,
      2 ≤ d.Count ∧
      d.node.Hash.length = 40 ∧
      (∀ c ∈ d.node.Hash, isLowerHexChar c) ∧
      dupString d =
        d.node.Hash ++ 58 :: natToDec d.Count ++ 58 :: intToDec d.node.Size ++
          58 :: goQuote d.node.Path ∧
      (goQuote d.node.Path).head? = some 34 ∧
      (goQuote d.node.Path).getLast? = some 34 := by
  intro d hd
  obtain ⟨g, hg, hmem, hcount, hlen⟩ := reportReduceDups_emitted input d hd
  have hin : d.node ∈ input := groupByHash_mem input g hg d.node hmem
  obtain ⟨bts, hbtslen, hbts⟩ := hh d.node hin
  refine ⟨by omega, ?_, ?_, rfl, rfl, ?_⟩
  · rw [hbts, hashToString_length, hbtslen]
  · rw [hbts]
    exact hashToString_chars bts
  · show (34 :: (d.node.Path.flatMap quoteRune ++ [34])).getLast? = some 34
    rw [show 34 :: (d.node.Path.flatMap quoteRune ++ [34]) =
      (34 :: d.node.Path.flatMap quoteRune) ++ [34] from rfl]
    exact List.getLast?_concat _

/-- Concrete C4 input: two nodes sharing the hex rendering of a 20-byte
digest. -/
def hashC4 : List Nat := hashToString (List.replicate 20 171)

/-- First C4 node. -/
def nodeA : Node := { Path := [97], Size := 5, Hash := hashC4 }

/-- Second C4 node. -/
def nodeB : Node := { Path := [98], Size := 5, Hash := hashC4 }

/-- Witness for C4 on the emitted record of `nodeA`. -/
theorem reportReduceDups_record_format_witness :
    2 ≤ (Dup.mk nodeA 2).Count ∧
    (Dup.mk nodeA 2).node.Hash.length = 40 ∧
    (∀ c ∈ (Dup.mk nodeA 2).node.Hash, isLowerHexChar c) ∧
    dupString (Dup.mk nodeA 2) =
      (Dup.mk nodeA 2).node.Hash ++ 58 :: natToDec (Dup.mk nodeA 2).Count ++
        58 :: intToDec (Dup.mk nodeA 2).node.Size ++
        58 :: goQuote (Dup.mk nodeA 2).node.Path ∧
    (goQuote (Dup.mk nodeA 2).node.Path).head? = some 34 ∧
    (goQuote (Dup.mk nodeA 2).node.Path).getLast? = some 34 :=
  reportReduceDups_record_format [nodeA, nodeB]
    (fun n hn => by
      rcases List.mem_cons.mp hn with h | h
      · exact ⟨List.replicate 20 171, by simp, by rw [h]; rfl⟩
      · rcases List.mem_cons.mp h with h' | h'
        · exact ⟨List.replicate 20 171, by simp, by rw [h']; rfl⟩
        · simp at h')
    (Dup.mk nodeA 2) (by decide)

/-! ## balancer: worker intake (C7) -/

/-- `balancer.worker` (live interface variant): the bounded `reqs` intake
channel, job payloads modelled as opaque ids.  (The heap-index field plays no
role in enqueueing.) -/
structure Worker where
  reqs : List Nat
deriving DecidableEq

/-- `balancer.maxWorkQueueDepth` of the live variant (the deprecated
pending-counter variant uses 10, see `pDepth` below). -/
def maxWorkQueueDepth : Nat := 200

/-- `worker.Enqueue`: non-blocking try-send (`select` with `default`) on the
bounded channel — append and succeed when the buffer has room, otherwise
return the capacity error leaving the intake untouched. -/
def Enqueue (w : Worker) (r : Nat) : Worker × Except String Unit :=
  if w.reqs.length < maxWorkQueueDepth then
    ({ reqs := w.reqs ++ [r] }, Except.ok ())
  else (w, Except.error "job queue capacity limit")

/-- `worker.QueueSize` of the live interface variant: `len(w.reqs)`. -/
def QueueSize (w : Worker) : Nat := w.reqs.length

/-- C7: `Enqueue` never blocks — it is a total function of the intake state:
with fewer than `maxWorkQueueDepth` pending requests it appends the request
and returns success; on a full intake it returns the capacity-exceeded error
and the intake is unchanged. -/
theorem Enqueue_spec (w : Worker) (r : Nat) :
    (w.reqs.length < maxWorkQueueDepth →
      Enqueue w r = ({ reqs := w.reqs ++ [r] }, Except.ok ())) ∧
    (maxWorkQueueDepth ≤ w.reqs.length →
      Enqueue w r = (w, Except.error "job queue capacity limit")) := by
  constructor
  · intro h
    rw [Enqueue, if_pos h]
  · intro h
    rw [Enqueue, if_neg (not_lt.mpr h)]

/-- Witness for C7: one slot free succeeds; a full intake fails unchanged. -/
theorem Enqueue_spec_witness :
    Enqueue { reqs := [1] } 2 = ({ reqs := [1, 2] }, Except.ok ()) ∧
    Enqueue { reqs := List.replicate 200 0 } 2 =
      ({ reqs := List.replicate 200 0 }, Except.error "job queue capacity limit") :=
  ⟨(Enqueue_spec { reqs := [1] } 2).1 (by decide),
   (Enqueue_spec { reqs := List.replicate 200 0 } 2).2
     (by rw [List.length_replicate]; rfl)⟩

/-! ## balancer: worker depth vs. intake length (C8)

The deprecated pending-counter variant (`balancer.go` second half) is modelled
as a transition system on one worker's observable state. -/

/-- State of one worker under the pending-counter balancer: the `reqs`
buffer, the balancer-maintained `pending` counter (`int`), and the number of
jobs the worker has pulled from the buffer whose completion the balancer has
not yet reconciled. -/
structure PWorker where
  reqs : List Nat
  pending : Int
  running : Nat
deriving DecidableEq

/-- Events on one worker: a dispatch of job `j` (`Balancer.dispatch`: pop the
heap, try-enqueue, `pending++` on success, push back), the worker pulling the
next job (`Worker.Run`: `req := <-w.reqs`), and completion reconciliation
(`Balancer.completed`: `pending--` after receiving from `done`). -/
inductive PEvent where
  | dispatch (j : Nat)
  | pickup
  | complete
deriving DecidableEq

/-- `maxWorkQueueDepth` of the pending-counter variant. -/
def pDepth : Nat := 10

/-- One event step.  A `pickup` on an empty buffer and a `complete` with no
job in flight cannot occur (a channel receive blocks; no `done` signal was
sent), so they leave the state unchanged. -/
def pStep (s : PWorker) : PEvent → PWorker
  | PEvent.dispatch j =>
    if s.reqs.length < pDepth then
      { s with reqs := s.reqs ++ [j], pending := s.pending + 1 }
    else s
  | PEvent.pickup =>
    match s.reqs with
    | [] => s
    | _ :: rest => { s with reqs := rest, running := s.running + 1 }
  | PEvent.complete =>
    if s.running = 0 then s
    else { s with pending := s.pending - 1, running := s.running - 1 }

/-- A fresh worker of the pending-counter balancer. -/
def pInit : PWorker := { reqs := [], pending := 0, running := 0 }

/-- The worker state after a sequence of events. -/
def pRun (es : List PEvent) : PWorker := es.foldl pStep pInit

/-- `Worker.QueueSize` of the pending-counter variant returns `w.pending`. -/
def pQueueSize (s : PWorker) : Int := s.pending

/-- C8 counterexample: after one dispatch and the worker's pickup of that job
— an instant outside any dispatch critical section — the pending-counter
variant's `QueueSize()` is 1 while its intake queue is empty. -/
theorem pQueueSize_ne_intake_len :
    pQueueSize (pRun [PEvent.dispatch 0, PEvent.pickup]) = 1 ∧
    (pRun [PEvent.dispatch 0, PEvent.pickup]).reqs.length = 0 ∧
    pQueueSize (pRun [PEvent.dispatch 0, PEvent.pickup]) ≠
      ((pRun [PEvent.dispatch 0, PEvent.pickup]).reqs.length : Int) := by
  decide

theorem pStep_inv (s : PWorker) (e : PEvent)
    (h : s.pending = (s.reqs.length : Int) + s.running) :
    (pStep s e).pending = ((pStep s e).reqs.length : Int) + (pStep s e).running := by
  cases e with
  | dispatch j =>
    by_cases hc : s.reqs.length < pDepth
    · simp only [pStep, if_pos hc, List.length_append, List.length_singleton]
      push_cast
      omega
    · simpa [pStep, hc] using h
  | pickup =>
    cases hr : s.reqs with
    | nil => simpa [pStep, hr] using h
    | cons a rest =>
      rw [hr] at h
      simp only [pStep, hr, List.length_cons] at h ⊢
      push_cast
      omega
  | complete =>
    by_cases hc : s.running = 0
    · simpa [pStep, hc] using h
    · simp only [pStep, if_neg hc]
      omega

theorem pRun_inv_aux : ∀ (es : List PEvent) (s : PWorker),
    s.pending = (s.reqs.length : Int) + s.running →
    (es.foldl pStep s).pending =
      ((es.foldl pStep s).reqs.length : Int) + (es.foldl pStep s).running := by
  intro es
  induction es with
  | nil => intro s h; exact h
  | cons e rest ih =>
    intro s h
    exact ih (pStep s e) (pStep_inv s e h)

/-- C8 (amended): for the live interface worker, `QueueSize()` is literally
the intake length at every instant; for the deprecated pending-counter
variant the invariant that actually holds — and is preserved by every
dispatch, pickup and completion reconciliation — is
`pending = len(reqs) + in-flight`, so `QueueSize()` equals the intake length
exactly at instants with no picked-up-but-unreconciled job. -/
theorem queueSize_depth_amended :
    (∀ w : Worker, QueueSize w = w.reqs.length) ∧
    (∀ es : List PEvent,
      pQueueSize (pRun es) = ((pRun es).reqs.length : Int) + (pRun es).running ∧
      ((pRun es).running = 0 →
        pQueueSize (pRun es) = ((pRun es).reqs.length : Int))) := by
  constructor
  · intro w
    rfl
  · intro es
    have h : (pRun es).pending = ((pRun es).reqs.length : Int) + (pRun es).running :=
      pRun_inv_aux es pInit (by decide)
    constructor
    · exact h
    · intro hr
      rw [show pQueueSize (pRun es) = (pRun es).pending from rfl, h, hr]
      push_cast
      omega

/-- Witness for C8 (amended): after dispatch, pickup and reconciliation the
counter and the intake length agree again. -/
theorem queueSize_depth_amended_witness :
    pQueueSize (pRun [PEvent.dispatch 0, PEvent.pickup, PEvent.complete]) =
      ((pRun [PEvent.dispatch 0, PEvent.pickup, PEvent.complete]).reqs.length : Int) :=
  (queueSize_depth_amended.2 [PEvent.dispatch 0, PEvent.pickup, PEvent.complete]).2
    (by decide)

end Dups
